import Mathlib

/-!
Shallow embedding of the `Rotation` class from
`scipy/spatial/transform/rotation.py` (an early development snapshot), and
proofs of the specification's claims about it.

Conventions mirrored from the source:
* quaternions are scalar-last `(x, y, z, w)` rows;
* direction cosine matrices (DCMs) are 3x3 real matrices;
* machine floats become exact reals; numpy branch thresholds (`1e-3`)
  stay as literal rational constants.
-/

namespace SpatialRotation

open Real

/-- One row of the `N x 4` quaternion store, scalar-last `(x, y, z, w)`. -/
structure Quat where
  x : ℝ
  y : ℝ
  z : ℝ
  w : ℝ

/-- A rotation vector row, 3 components. -/
structure Vec3 where
  x : ℝ
  y : ℝ
  z : ℝ

/-- 3x3 real matrix, the DCM type. -/
abbrev Mat3 := Matrix (Fin 3) (Fin 3) ℝ

noncomputable section

/-- Row L2 norm of a quaternion, `scipy.linalg.norm(quat, axis=1)` on one row. -/
def qnorm (q : Quat) : ℝ := Real.sqrt (q.x ^ 2 + q.y ^ 2 + q.z ^ 2 + q.w ^ 2)

/-- Componentwise negation: the source's `quat[...] *= -1` row update. -/
def qneg (q : Quat) : Quat := ⟨-q.x, -q.y, -q.z, -q.w⟩

/-- Componentwise scalar multiple of a quaternion row. -/
def qsmul (c : ℝ) (q : Quat) : Quat := ⟨c * q.x, c * q.y, c * q.z, c * q.w⟩

/-- Divide a quaternion row by its own L2 norm:
`quat /= np.linalg.norm(quat, axis=1)[:, None]` on one row. -/
def qnormalize (q : Quat) : Quat :=
  ⟨q.x / qnorm q, q.y / qnorm q, q.z / qnorm q, q.w / qnorm q⟩

/-- Euclidean norm of a 3-vector, `np.linalg.norm(rotvec, axis=1)` on one row. -/
def norm3 (v : Vec3) : ℝ := Real.sqrt (v.x ^ 2 + v.y ^ 2 + v.z ^ 2)

/-- `Rotation.as_dcm` on one stored quaternion row (lines 99-129 of the
source): the standard quaternion-to-matrix formula, entry by entry. -/
def as_dcm (q : Quat) : Mat3 :=
  !![q.x * q.x - q.y * q.y - q.z * q.z + q.w * q.w,
       2 * (q.x * q.y - q.z * q.w),
       2 * (q.x * q.z + q.y * q.w);
     2 * (q.x * q.y + q.z * q.w),
       -(q.x * q.x) + q.y * q.y - q.z * q.z + q.w * q.w,
       2 * (q.y * q.z - q.x * q.w);
     2 * (q.x * q.z - q.y * q.w),
       2 * (q.y * q.z + q.x * q.w),
       -(q.x * q.x) - q.y * q.y + q.z * q.z + q.w * q.w]

/-- The `scale` array of `Rotation.from_rotvec` as a function of the row
norm: Taylor branch for `norms <= 1e-3`, else `sin(norm/2)/norm`. -/
def rotvec_scale (n : ℝ) : ℝ :=
  if n ≤ 1e-3 then 0.5 - n ^ 2 / 48 + n ^ 4 / 3840
  else Real.sin (n / 2) / n

/-- `Rotation.from_rotvec` on one rotation-vector row: quaternion
`(scale * v, cos(norm/2))`. -/
def from_rotvec (v : Vec3) : Quat :=
  ⟨rotvec_scale (norm3 v) * v.x,
   rotvec_scale (norm3 v) * v.y,
   rotvec_scale (norm3 v) * v.z,
   Real.cos (norm3 v / 2)⟩

/-- `np.arctan2 y x` over exact reals: the argument of the complex number
`x + y*I`, valued in `(-pi, pi]`. -/
def atan2 (y x : ℝ) : ℝ := Complex.arg ⟨x, y⟩

/-- The sign-canonicalization step of `Rotation.as_rotvec`:
`quat[quat[:, 3] < 0] *= -1` on one row. -/
def flipq (q : Quat) : Quat := if q.w < 0 then qneg q else q

/-- The `angle` array of `Rotation.as_rotvec` on one (already flipped) row:
`2 * arctan2(norm(quat[:, :3]), quat[:, 3])`. -/
def quat_angle (q : Quat) : ℝ :=
  2 * atan2 (Real.sqrt (q.x ^ 2 + q.y ^ 2 + q.z ^ 2)) q.w

/-- The `scale` array of `Rotation.as_rotvec` as a function of the angle:
Taylor branch for `angle <= 1e-3`, else `angle / sin(angle/2)`. -/
def angle_scale (a : ℝ) : ℝ :=
  if a ≤ 1e-3 then 2 + a ^ 2 / 12 + 7 * a ^ 4 / 2880
  else a / Real.sin (a / 2)

/-- `Rotation.as_rotvec` on one stored quaternion row: flip the sign if the
scalar part is negative, then `scale * quat[:, :3]`. -/
def as_rotvec (q : Quat) : Vec3 :=
  ⟨angle_scale (quat_angle (flipq q)) * (flipq q).x,
   angle_scale (quat_angle (flipq q)) * (flipq q).y,
   angle_scale (quat_angle (flipq q)) * (flipq q).z⟩

/-- `np.argmax` over the 4 decision values `[M00, M11, M22, trace]` of
`Rotation.from_dcm`: index of the first occurrence of the maximum. -/
def argmax4 (d0 d1 d2 d3 : ℝ) : Fin 4 :=
  if d0 ≥ d1 ∧ d0 ≥ d2 ∧ d0 ≥ d3 then 0
  else if d1 ≥ d2 ∧ d1 ≥ d3 then 1
  else if d2 ≥ d3 then 2
  else 3

/-- The branch-selected quaternion of `Rotation.from_dcm` (lines 171-192)
before the final normalization.  For a diagonal choice `i` the source sets
`quat[i] = 1 - trace + 2*M[i,i]`, `quat[j] = M[j,i] + M[i,j]`,
`quat[k] = M[k,i] + M[i,k]`, `quat[3] = M[k,j] - M[j,k]` with
`j = (i+1) % 3`, `k = (j+1) % 3`; for choice 3 it uses the trace formula. -/
def dcm_unnormalized (M : Mat3) : Quat :=
  if argmax4 (M 0 0) (M 1 1) (M 2 2) (M 0 0 + M 1 1 + M 2 2) = 0 then
    ⟨1 - (M 0 0 + M 1 1 + M 2 2) + 2 * M 0 0, M 1 0 + M 0 1, M 2 0 + M 0 2,
      M 2 1 - M 1 2⟩
  else if argmax4 (M 0 0) (M 1 1) (M 2 2) (M 0 0 + M 1 1 + M 2 2) = 1 then
    ⟨M 0 1 + M 1 0, 1 - (M 0 0 + M 1 1 + M 2 2) + 2 * M 1 1, M 2 1 + M 1 2,
      M 0 2 - M 2 0⟩
  else if argmax4 (M 0 0) (M 1 1) (M 2 2) (M 0 0 + M 1 1 + M 2 2) = 2 then
    ⟨M 0 2 + M 2 0, M 1 2 + M 2 1, 1 - (M 0 0 + M 1 1 + M 2 2) + 2 * M 2 2,
      M 1 0 - M 0 1⟩
  else
    ⟨M 2 1 - M 1 2, M 0 2 - M 2 0, M 1 0 - M 0 1,
      1 + (M 0 0 + M 1 1 + M 2 2)⟩

/-- The quaternion extracted from one DCM by `Rotation.from_dcm`:
branch-selected components, then division by the row norm. -/
def dcm_to_quat (M : Mat3) : Quat := qnormalize (dcm_unnormalized M)

end

lemma argmax4_eq_zero {d0 d1 d2 d3 : ℝ} (h : d0 ≥ d1 ∧ d0 ≥ d2 ∧ d0 ≥ d3) :
    argmax4 d0 d1 d2 d3 = 0 := by
  rw [argmax4, if_pos h]

lemma argmax4_eq_one {d0 d1 d2 d3 : ℝ} (h0 : ¬(d0 ≥ d1 ∧ d0 ≥ d2 ∧ d0 ≥ d3))
    (h1 : d1 ≥ d2 ∧ d1 ≥ d3) : argmax4 d0 d1 d2 d3 = 1 := by
  rw [argmax4, if_neg h0, if_pos h1]

lemma argmax4_eq_two {d0 d1 d2 d3 : ℝ} (h0 : ¬(d0 ≥ d1 ∧ d0 ≥ d2 ∧ d0 ≥ d3))
    (h1 : ¬(d1 ≥ d2 ∧ d1 ≥ d3)) (h2 : d2 ≥ d3) : argmax4 d0 d1 d2 d3 = 2 := by
  rw [argmax4, if_neg h0, if_neg h1, if_pos h2]

lemma argmax4_eq_three {d0 d1 d2 d3 : ℝ} (h0 : ¬(d0 ≥ d1 ∧ d0 ≥ d2 ∧ d0 ≥ d3))
    (h1 : ¬(d1 ≥ d2 ∧ d1 ≥ d3)) (h2 : ¬(d2 ≥ d3)) : argmax4 d0 d1 d2 d3 = 3 := by
  rw [argmax4, if_neg h0, if_neg h1, if_neg h2]

lemma qnorm_of_unit {q : Quat} (h : q.x ^ 2 + q.y ^ 2 + q.z ^ 2 + q.w ^ 2 = 1) :
    qnorm q = 1 := by
  rw [qnorm, h, Real.sqrt_one]

lemma qnorm_qsmul (c : ℝ) (q : Quat) : qnorm (qsmul c q) = |c| * qnorm q := by
  rw [qnorm, qnorm, qsmul]
  have hs : (c * q.x) ^ 2 + (c * q.y) ^ 2 + (c * q.z) ^ 2 + (c * q.w) ^ 2 =
      c ^ 2 * (q.x ^ 2 + q.y ^ 2 + q.z ^ 2 + q.w ^ 2) := by ring
  rw [hs, Real.sqrt_mul (sq_nonneg c), Real.sqrt_sq_eq_abs]

/-- Normalizing a nonzero scalar multiple of a unit quaternion recovers the
quaternion up to global sign. -/
lemma qnormalize_qsmul_or (c : ℝ) (q : Quat) (hq : qnorm q = 1) (hc : c ≠ 0) :
    qnormalize (qsmul c q) = q ∨ qnormalize (qsmul c q) = qneg q := by
  have hn : qnorm (qsmul c q) = |c| := by rw [qnorm_qsmul, hq, mul_one]
  obtain ⟨x, y, z, w⟩ := q
  rcases lt_or_gt_of_ne hc with hneg | hpos
  · right
    rw [qnormalize, hn, abs_of_neg hneg, qsmul, qneg]
    simp only [Quat.mk.injEq]
    refine ⟨?_, ?_, ?_, ?_⟩ <;>
      rw [div_neg, neg_eq_iff_eq_neg, neg_neg, mul_comm, mul_div_assoc,
        div_self hc, mul_one]
  · left
    rw [qnormalize, hn, abs_of_pos hpos, qsmul]
    simp only [Quat.mk.injEq]
    refine ⟨?_, ?_, ?_, ?_⟩ <;> rw [mul_comm, mul_div_assoc, div_self hc, mul_one]

/-- The transpose of `as_dcm q`, written out entrywise. -/
lemma as_dcm_transpose (q : Quat) :
    (as_dcm q).transpose =
      !![q.x * q.x - q.y * q.y - q.z * q.z + q.w * q.w,
           2 * (q.x * q.y + q.z * q.w),
           2 * (q.x * q.z - q.y * q.w);
         2 * (q.x * q.y - q.z * q.w),
           -(q.x * q.x) + q.y * q.y - q.z * q.z + q.w * q.w,
           2 * (q.y * q.z + q.x * q.w);
         2 * (q.x * q.z + q.y * q.w),
           2 * (q.y * q.z - q.x * q.w),
           -(q.x * q.x) - q.y * q.y + q.z * q.z + q.w * q.w] := by
  ext i j
  fin_cases i <;> fin_cases j <;> rfl

/-- C7: `from_rotvec` on the zero vector takes the Taylor branch and yields
exactly the identity quaternion `(0, 0, 0, 1)`. -/
theorem c7_zero_rotvec_identity :
    from_rotvec ⟨0, 0, 0⟩ = ⟨0, 0, 0, 1⟩ ∧ norm3 ⟨0, 0, 0⟩ ≤ 1e-3 := by
  have hn : norm3 ⟨0, 0, 0⟩ = 0 := by
    simp [norm3]
  constructor
  · unfold from_rotvec
    rw [hn]
    simp [rotvec_scale]
  · rw [hn]; norm_num

/-- C5: for a unit quaternion `q`, the matrix `M` returned by `as_dcm`
satisfies `Mᵀ * M = 1` and `det M = 1` (exact real arithmetic). -/
theorem c5_dcm_orthogonal (q : Quat)
    (h : q.x ^ 2 + q.y ^ 2 + q.z ^ 2 + q.w ^ 2 = 1) :
    (as_dcm q).transpose * as_dcm q = 1 ∧ (as_dcm q).det = 1 := by
  constructor
  · rw [as_dcm_transpose, as_dcm, Matrix.mul_fin_three]
    ext i j
    fin_cases i <;> fin_cases j <;>
      · simp [Matrix.one_apply]
        first
        | ring1
        | linear_combination (q.x ^ 2 + q.y ^ 2 + q.z ^ 2 + q.w ^ 2 + 1) * h
  · rw [Matrix.det_fin_three]
    simp [as_dcm]
    linear_combination
      ((q.x ^ 2 + q.y ^ 2 + q.z ^ 2 + q.w ^ 2) ^ 2 +
        (q.x ^ 2 + q.y ^ 2 + q.z ^ 2 + q.w ^ 2) + 1) * h

/-- Witness for C5 at the concrete unit quaternion `(1, 0, 0, 0)`. -/
theorem c5_dcm_orthogonal_witness :
    (1 : ℝ) ^ 2 + 0 ^ 2 + 0 ^ 2 + 0 ^ 2 = 1 ∧
      ((as_dcm ⟨1, 0, 0, 0⟩).transpose * as_dcm ⟨1, 0, 0, 0⟩ = 1 ∧
        (as_dcm ⟨1, 0, 0, 0⟩).det = 1) :=
  ⟨by norm_num, c5_dcm_orthogonal ⟨1, 0, 0, 0⟩ (by norm_num)⟩

lemma as_dcm_00 (q : Quat) :
    as_dcm q 0 0 = q.x * q.x - q.y * q.y - q.z * q.z + q.w * q.w := rfl

lemma as_dcm_01 (q : Quat) : as_dcm q 0 1 = 2 * (q.x * q.y - q.z * q.w) := rfl

lemma as_dcm_02 (q : Quat) : as_dcm q 0 2 = 2 * (q.x * q.z + q.y * q.w) := rfl

lemma as_dcm_10 (q : Quat) : as_dcm q 1 0 = 2 * (q.x * q.y + q.z * q.w) := rfl

lemma as_dcm_11 (q : Quat) :
    as_dcm q 1 1 = -(q.x * q.x) + q.y * q.y - q.z * q.z + q.w * q.w := rfl

lemma as_dcm_12 (q : Quat) : as_dcm q 1 2 = 2 * (q.y * q.z - q.x * q.w) := rfl

lemma as_dcm_20 (q : Quat) : as_dcm q 2 0 = 2 * (q.x * q.z - q.y * q.w) := rfl

lemma as_dcm_21 (q : Quat) : as_dcm q 2 1 = 2 * (q.y * q.z + q.x * q.w) := rfl

lemma as_dcm_22 (q : Quat) :
    as_dcm q 2 2 = -(q.x * q.x) - q.y * q.y + q.z * q.z + q.w * q.w := rfl

/-- C2: for every unit quaternion `q`, extracting a quaternion from
`as_dcm q` with the branch-selecting `from_dcm` method returns exactly `q`
or exactly `-q` (exact real arithmetic). -/
theorem c2_round_trip (q : Quat)
    (h : q.x * q.x + q.y * q.y + q.z * q.z + q.w * q.w = 1) :
    dcm_to_quat (as_dcm q) = q ∨ dcm_to_quat (as_dcm q) = qneg q := by
  have hq1 : qnorm q = 1 := qnorm_of_unit (by linear_combination h)
  by_cases hc0 :
      q.x * q.x - q.y * q.y - q.z * q.z + q.w * q.w ≥
        -(q.x * q.x) + q.y * q.y - q.z * q.z + q.w * q.w ∧
      q.x * q.x - q.y * q.y - q.z * q.z + q.w * q.w ≥
        -(q.x * q.x) - q.y * q.y + q.z * q.z + q.w * q.w ∧
      q.x * q.x - q.y * q.y - q.z * q.z + q.w * q.w ≥
        (q.x * q.x - q.y * q.y - q.z * q.z + q.w * q.w) +
          (-(q.x * q.x) + q.y * q.y - q.z * q.z + q.w * q.w) +
          (-(q.x * q.x) - q.y * q.y + q.z * q.z + q.w * q.w)
  · -- choice 0: the unnormalized quaternion is 4*q.x times q
    have hmax : argmax4 (as_dcm q 0 0) (as_dcm q 1 1) (as_dcm q 2 2)
        (as_dcm q 0 0 + as_dcm q 1 1 + as_dcm q 2 2) = 0 := by
      apply argmax4_eq_zero
      rw [as_dcm_00, as_dcm_11, as_dcm_22]
      exact hc0
    have hx : q.x ≠ 0 := by
      intro hx0
      have hxx : q.x * q.x = 0 := by rw [hx0]; ring
      have h1 := hc0.1
      have h2 := hc0.2.1
      have h3 := hc0.2.2
      linarith [mul_self_nonneg q.y, mul_self_nonneg q.z, mul_self_nonneg q.w]
    have hqu : dcm_unnormalized (as_dcm q) = qsmul (4 * q.x) q := by
      rw [dcm_unnormalized, hmax, if_pos rfl, as_dcm_00, as_dcm_01, as_dcm_02,
        as_dcm_10, as_dcm_11, as_dcm_12, as_dcm_20, as_dcm_21, as_dcm_22, qsmul]
      simp only [Quat.mk.injEq]
      refine ⟨?_, ?_, ?_, ?_⟩ <;>
        first
        | ring1
        | linear_combination (-1 : ℝ) * h
    rw [dcm_to_quat, hqu]
    exact qnormalize_qsmul_or (4 * q.x) q hq1 (mul_ne_zero (by norm_num) hx)
  · by_cases hc1 :
        -(q.x * q.x) + q.y * q.y - q.z * q.z + q.w * q.w ≥
          -(q.x * q.x) - q.y * q.y + q.z * q.z + q.w * q.w ∧
        -(q.x * q.x) + q.y * q.y - q.z * q.z + q.w * q.w ≥
          (q.x * q.x - q.y * q.y - q.z * q.z + q.w * q.w) +
            (-(q.x * q.x) + q.y * q.y - q.z * q.z + q.w * q.w) +
            (-(q.x * q.x) - q.y * q.y + q.z * q.z + q.w * q.w)
    · -- choice 1: the unnormalized quaternion is 4*q.y times q
      have hmax : argmax4 (as_dcm q 0 0) (as_dcm q 1 1) (as_dcm q 2 2)
          (as_dcm q 0 0 + as_dcm q 1 1 + as_dcm q 2 2) = 1 := by
        apply argmax4_eq_one
        · rw [as_dcm_00, as_dcm_11, as_dcm_22]
          exact hc0
        · rw [as_dcm_00, as_dcm_11, as_dcm_22]
          exact hc1
      have hy : q.y ≠ 0 := by
        intro hy0
        have hyy : q.y * q.y = 0 := by rw [hy0]; ring
        have hzz : q.z * q.z ≤ 0 := by linarith [hc1.1]
        have hww : q.w * q.w ≤ 0 := by linarith [hc1.2]
        exact hc0 ⟨by linarith [mul_self_nonneg q.x],
          by linarith [mul_self_nonneg q.x], by linarith [mul_self_nonneg q.x]⟩
      have hqu : dcm_unnormalized (as_dcm q) = qsmul (4 * q.y) q := by
        rw [dcm_unnormalized, hmax, if_neg (by decide), if_pos rfl, as_dcm_00,
          as_dcm_01, as_dcm_02, as_dcm_10, as_dcm_11, as_dcm_12, as_dcm_20,
          as_dcm_21, as_dcm_22, qsmul]
        simp only [Quat.mk.injEq]
        refine ⟨?_, ?_, ?_, ?_⟩ <;>
          first
          | ring1
          | linear_combination (-1 : ℝ) * h
      rw [dcm_to_quat, hqu]
      exact qnormalize_qsmul_or (4 * q.y) q hq1 (mul_ne_zero (by norm_num) hy)
    · by_cases hc2 :
          -(q.x * q.x) - q.y * q.y + q.z * q.z + q.w * q.w ≥
            (q.x * q.x - q.y * q.y - q.z * q.z + q.w * q.w) +
              (-(q.x * q.x) + q.y * q.y - q.z * q.z + q.w * q.w) +
              (-(q.x * q.x) - q.y * q.y + q.z * q.z + q.w * q.w)
      · -- choice 2: the unnormalized quaternion is 4*q.z times q
        have hmax : argmax4 (as_dcm q 0 0) (as_dcm q 1 1) (as_dcm q 2 2)
            (as_dcm q 0 0 + as_dcm q 1 1 + as_dcm q 2 2) = 2 := by
          apply argmax4_eq_two
          · rw [as_dcm_00, as_dcm_11, as_dcm_22]
            exact hc0
          · rw [as_dcm_00, as_dcm_11, as_dcm_22]
            exact hc1
          · rw [as_dcm_00, as_dcm_11, as_dcm_22]
            exact hc2
        have hz : q.z ≠ 0 := by
          intro hz0
          have hzz : q.z * q.z = 0 := by rw [hz0]; ring
          have hww : q.w * q.w ≤ 0 := by linarith [hc2]
          exact hc1 ⟨by linarith [mul_self_nonneg q.y],
            by linarith [mul_self_nonneg q.y]⟩
        have hqu : dcm_unnormalized (as_dcm q) = qsmul (4 * q.z) q := by
          rw [dcm_unnormalized, hmax, if_neg (by decide), if_neg (by decide),
            if_pos rfl, as_dcm_00, as_dcm_01, as_dcm_02, as_dcm_10, as_dcm_11,
            as_dcm_12, as_dcm_20, as_dcm_21, as_dcm_22, qsmul]
          simp only [Quat.mk.injEq]
          refine ⟨?_, ?_, ?_, ?_⟩ <;>
            first
            | ring1
            | linear_combination (-1 : ℝ) * h
        rw [dcm_to_quat, hqu]
        exact qnormalize_qsmul_or (4 * q.z) q hq1
          (mul_ne_zero (by norm_num) hz)
      · -- choice 3: the unnormalized quaternion is 4*q.w times q
        have hmax : argmax4 (as_dcm q 0 0) (as_dcm q 1 1) (as_dcm q 2 2)
            (as_dcm q 0 0 + as_dcm q 1 1 + as_dcm q 2 2) = 3 := by
          apply argmax4_eq_three
          · rw [as_dcm_00, as_dcm_11, as_dcm_22]
            exact hc0
          · rw [as_dcm_00, as_dcm_11, as_dcm_22]
            exact hc1
          · rw [as_dcm_00, as_dcm_11, as_dcm_22]
            exact hc2
        have hw : q.w ≠ 0 := by
          intro hw0
          have hww : q.w * q.w = 0 := by rw [hw0]; ring
          rw [not_le] at hc2
          linarith [mul_self_nonneg q.z]
        have hqu : dcm_unnormalized (as_dcm q) = qsmul (4 * q.w) q := by
          rw [dcm_unnormalized, hmax, if_neg (by decide), if_neg (by decide),
            if_neg (by decide), as_dcm_00, as_dcm_01, as_dcm_02, as_dcm_10,
            as_dcm_11, as_dcm_12, as_dcm_20, as_dcm_21, as_dcm_22, qsmul]
          simp only [Quat.mk.injEq]
          refine ⟨?_, ?_, ?_, ?_⟩ <;>
            first
            | ring1
            | linear_combination (-1 : ℝ) * h
        rw [dcm_to_quat, hqu]
        exact qnormalize_qsmul_or (4 * q.w) q hq1
          (mul_ne_zero (by norm_num) hw)

/-- Witness for C2 at the concrete unit quaternion `(0, 0, 0, 1)`. -/
theorem c2_round_trip_witness :
    (0 : ℝ) * 0 + 0 * 0 + 0 * 0 + 1 * 1 = 1 ∧
      (dcm_to_quat (as_dcm ⟨0, 0, 0, 1⟩) = ⟨0, 0, 0, 1⟩ ∨
        dcm_to_quat (as_dcm ⟨0, 0, 0, 1⟩) = qneg ⟨0, 0, 0, 1⟩) :=
  ⟨by norm_num, c2_round_trip ⟨0, 0, 0, 1⟩ (by norm_num)⟩

lemma qnorm_qneg (q : Quat) : qnorm (qneg q) = qnorm q := by
  rw [qnorm, qnorm, qneg]
  exact congrArg Real.sqrt (by ring)

/-- `atan2` recovers the angle from its sine and cosine on `(-pi, pi]`. -/
lemma atan2_sin_cos {t : ℝ} (ht : t ∈ Set.Ioc (-π) π) :
    atan2 (Real.sin t) (Real.cos t) = t := by
  rw [atan2, Complex.mk_eq_add_mul_I, Complex.ofReal_cos, Complex.ofReal_sin]
  exact Complex.arg_cos_add_sin_mul_I ht

lemma sqrt_three_squares_smul (s a b c : ℝ) :
    Real.sqrt ((s * a) ^ 2 + (s * b) ^ 2 + (s * c) ^ 2) =
      |s| * Real.sqrt (a ^ 2 + b ^ 2 + c ^ 2) := by
  have e : (s * a) ^ 2 + (s * b) ^ 2 + (s * c) ^ 2 =
      s ^ 2 * (a ^ 2 + b ^ 2 + c ^ 2) := by ring
  rw [e, Real.sqrt_mul (sq_nonneg s), Real.sqrt_sq_eq_abs]

/-- C4: for a rotation vector of norm at most pi, the stored quaternion has
nonnegative scalar part (the sign-flip in `as_rotvec` never fires), and
outside the Taylor branch the round trip
`as_rotvec (from_rotvec v) = v` is exact. -/
theorem c4_rotvec_round_trip (v : Vec3) (hv : norm3 v ≤ π) :
    0 ≤ (from_rotvec v).w ∧
      ((1e-3 : ℝ) < norm3 v → as_rotvec (from_rotvec v) = v) := by
  have hn0 : 0 ≤ norm3 v := Real.sqrt_nonneg _
  have hw : 0 ≤ Real.cos (norm3 v / 2) := by
    apply Real.cos_nonneg_of_mem_Icc
    constructor
    · have := Real.pi_pos
      linarith
    · linarith
  refine ⟨hw, ?_⟩
  intro hgt
  have hnpos : (0 : ℝ) < norm3 v := lt_trans (by norm_num) hgt
  have hnne : norm3 v ≠ 0 := ne_of_gt hnpos
  have hspos : 0 < Real.sin (norm3 v / 2) := by
    apply Real.sin_pos_of_pos_of_lt_pi
    · linarith
    · have := Real.pi_pos
      linarith
  have hsne : Real.sin (norm3 v / 2) ≠ 0 := ne_of_gt hspos
  have hscale : rotvec_scale (norm3 v) = Real.sin (norm3 v / 2) / norm3 v := by
    rw [rotvec_scale, if_neg (not_le.mpr hgt)]
  have hwv : (from_rotvec v).w = Real.cos (norm3 v / 2) := rfl
  have hflip : flipq (from_rotvec v) = from_rotvec v := by
    rw [flipq, hwv, if_neg (not_lt.mpr hw)]
  have hvpn : Real.sqrt ((from_rotvec v).x ^ 2 + (from_rotvec v).y ^ 2 +
      (from_rotvec v).z ^ 2) = Real.sin (norm3 v / 2) := by
    simp only [from_rotvec]
    rw [sqrt_three_squares_smul]
    rw [show Real.sqrt (v.x ^ 2 + v.y ^ 2 + v.z ^ 2) = norm3 v from rfl]
    rw [hscale, abs_of_pos (div_pos hspos hnpos), div_mul_cancel₀ _ hnne]
  have hmem : norm3 v / 2 ∈ Set.Ioc (-π) π := by
    refine Set.mem_Ioc.mpr ⟨?_, ?_⟩
    · have := Real.pi_pos
      linarith
    · linarith
  have hang : quat_angle (from_rotvec v) = norm3 v := by
    rw [quat_angle, hvpn, hwv, atan2_sin_cos hmem]
    ring
  have hsc2 : angle_scale (norm3 v) = norm3 v / Real.sin (norm3 v / 2) := by
    rw [angle_scale, if_neg (not_le.mpr hgt)]
  have hAB : angle_scale (norm3 v) * rotvec_scale (norm3 v) = 1 := by
    rw [hsc2, hscale]
    field_simp
  show as_rotvec (from_rotvec v) = v
  rw [as_rotvec, hflip, hang]
  simp only [from_rotvec]
  rw [Vec3.mk.injEq]
  refine ⟨?_, ?_, ?_⟩ <;>
    · rw [← mul_assoc]
      rw [show angle_scale (norm3 v) * rotvec_scale (norm3 v) = 1 from hAB]
      rw [one_mul]

/-- Witness for C4 at the concrete rotation vector `(1, 0, 0)`. -/
theorem c4_rotvec_round_trip_witness :
    norm3 ⟨1, 0, 0⟩ ≤ π ∧
      (0 ≤ (from_rotvec ⟨1, 0, 0⟩).w ∧
        ((1e-3 : ℝ) < norm3 ⟨1, 0, 0⟩ →
          as_rotvec (from_rotvec ⟨1, 0, 0⟩) = ⟨1, 0, 0⟩)) := by
  have h1 : norm3 (⟨1, 0, 0⟩ : Vec3) = 1 := by
    rw [norm3]
    norm_num
  have hle : norm3 (⟨1, 0, 0⟩ : Vec3) ≤ π := by
    rw [h1]
    linarith [Real.pi_gt_three]
  exact ⟨hle, c4_rotvec_round_trip ⟨1, 0, 0⟩ hle⟩

/-- The quaternion store object: the `_single` flag plus the rows of the
`N x 4` block `_quat`. -/
structure Rotation where
  single : Bool
  rows : List Quat

/-- `Rotation.as_rotvec` over the whole stored batch, row by row. -/
noncomputable def rotation_as_rotvec (r : Rotation) : List Vec3 :=
  r.rows.map as_rotvec

/-- Core of C8 for a single stored row: a unit quaternion converts to a
rotation vector of Euclidean norm at most pi. -/
lemma as_rotvec_norm_le_pi {q : Quat} (h1 : qnorm q = 1) :
    norm3 (as_rotvec q) ≤ π := by
  have hp1 : qnorm (flipq q) = 1 := by
    rw [flipq]
    split_ifs with hwneg
    · rw [qnorm_qneg]
      exact h1
    · exact h1
  have hpw : 0 ≤ (flipq q).w := by
    rw [flipq]
    split_ifs with hwneg
    · show 0 ≤ -q.w
      linarith
    · exact not_lt.mp hwneg
  have hsum : (flipq q).x ^ 2 + (flipq q).y ^ 2 + (flipq q).z ^ 2 +
      (flipq q).w ^ 2 = 1 := by
    rw [qnorm] at hp1
    exact Real.sqrt_eq_one.mp hp1
  have hvp0 : 0 ≤ Real.sqrt ((flipq q).x ^ 2 + (flipq q).y ^ 2 + (flipq q).z ^ 2) :=
    Real.sqrt_nonneg _
  have hvpsq : Real.sqrt ((flipq q).x ^ 2 + (flipq q).y ^ 2 + (flipq q).z ^ 2) ^ 2 =
      (flipq q).x ^ 2 + (flipq q).y ^ 2 + (flipq q).z ^ 2 :=
    Real.sq_sqrt (by positivity)
  set vp := Real.sqrt ((flipq q).x ^ 2 + (flipq q).y ^ 2 + (flipq q).z ^ 2) with hvpdef
  have habs : Complex.abs ⟨(flipq q).w, vp⟩ = 1 := by
    rw [Complex.abs_apply, Complex.normSq_mk]
    rw [show (flipq q).w * (flipq q).w + vp * vp =
      vp ^ 2 + (flipq q).w ^ 2 by ring]
    rw [hvpsq, hsum]
    exact Real.sqrt_one
  have hth0 : 0 ≤ Complex.arg ⟨(flipq q).w, vp⟩ := by
    rw [Complex.arg_nonneg_iff]
    exact hvp0
  have hth2 : Complex.arg ⟨(flipq q).w, vp⟩ ≤ π / 2 := by
    rw [Complex.arg_le_pi_div_two_iff]
    exact Or.inl hpw
  have hsinth : Real.sin (Complex.arg ⟨(flipq q).w, vp⟩) = vp := by
    rw [Complex.sin_arg, habs]
    simp
  have hang : quat_angle (flipq q) = 2 * Complex.arg ⟨(flipq q).w, vp⟩ := rfl
  have hnorm : norm3 (as_rotvec q) =
      |angle_scale (quat_angle (flipq q))| * vp := by
    rw [as_rotvec, norm3]
    show Real.sqrt ((angle_scale (quat_angle (flipq q)) * (flipq q).x) ^ 2 +
      (angle_scale (quat_angle (flipq q)) * (flipq q).y) ^ 2 +
      (angle_scale (quat_angle (flipq q)) * (flipq q).z) ^ 2) = _
    rw [sqrt_three_squares_smul]
  rw [hnorm, hang]
  set th := Complex.arg ⟨(flipq q).w, vp⟩ with hthdef
  have hsin_le : vp ≤ th := by
    rcases eq_or_lt_of_le hth0 with heq | hlt
    · rw [← hsinth, ← heq]
      simp [Real.sin_zero]
    · rw [← hsinth]
      exact le_of_lt (Real.sin_lt hlt)
  by_cases hA : 2 * th ≤ 1e-3
  · rw [angle_scale, if_pos hA]
    have hsc_pos : (0 : ℝ) <
        2 + (2 * th) ^ 2 / 12 + 7 * (2 * th) ^ 4 / 2880 := by positivity
    rw [abs_of_pos hsc_pos]
    have hth_small : th ≤ 1 / 2000 := by linarith [hA]
    have h2a : th ^ 2 ≤ 1 / 1000000 := by nlinarith
    have h4a : th ^ 4 ≤ 1 / 1000000 := by nlinarith [sq_nonneg th, sq_nonneg (th ^ 2)]
    have hS3 : 2 + (2 * th) ^ 2 / 12 + 7 * (2 * th) ^ 4 / 2880 ≤ 3 := by nlinarith
    have hfin : (2 + (2 * th) ^ 2 / 12 + 7 * (2 * th) ^ 4 / 2880) * vp ≤ 3 * (1 / 2000) :=
      mul_le_mul hS3 (le_trans hsin_le hth_small) hvp0 (by norm_num)
    linarith [Real.pi_gt_three]
  · rw [angle_scale, if_neg hA]
    have hthpos : 0 < th := by
      by_contra hc
      push_neg at hc
      have : th = 0 := le_antisymm hc hth0
      rw [this] at hA
      norm_num at hA
    have hvp_pos : 0 < vp := by
      rw [← hsinth]
      apply Real.sin_pos_of_pos_of_lt_pi hthpos
      have := Real.pi_pos
      linarith
    rw [show 2 * th / 2 = th from by ring, hsinth]
    rw [abs_of_pos (div_pos (by linarith) hvp_pos)]
    rw [div_mul_cancel₀ _ (ne_of_gt hvp_pos)]
    linarith

/-- C8: for a `Rotation` whose stored rows are unit quaternions, every row
of the `as_rotvec` output has Euclidean norm at most pi. -/
theorem c8_rotvec_norm_le_pi (r : Rotation) (h : ∀ q ∈ r.rows, qnorm q = 1) :
    ∀ v ∈ rotation_as_rotvec r, norm3 v ≤ π := by
  intro v hv
  rw [rotation_as_rotvec, List.mem_map] at hv
  obtain ⟨q, hq, rfl⟩ := hv
  exact as_rotvec_norm_le_pi (h q hq)

/-- Witness for C8: the singleton rotation holding `(0, 0, 0, 1)`. -/
theorem c8_rotvec_norm_le_pi_witness :
    norm3 (as_rotvec ⟨0, 0, 0, 1⟩) ≤ π := by
  have hq : ∀ q ∈ (Rotation.mk true [⟨0, 0, 0, 1⟩]).rows, qnorm q = 1 := by
    intro q hq
    rw [List.mem_singleton] at hq
    rw [hq, qnorm]
    norm_num
  exact c8_rotvec_norm_le_pi (Rotation.mk true [⟨0, 0, 0, 1⟩]) hq
    (as_rotvec ⟨0, 0, 0, 1⟩) (List.mem_map_of_mem as_rotvec (List.mem_singleton.mpr rfl))

/-- The regex `^[xyz]\x7b1,3\x7d$` of `_make_dcm_from_euler`: 1 to 3
characters, all lowercase axis letters (extrinsic sequence). -/
def extrinsicMatch (s : String) : Prop :=
  1 ≤ s.length ∧ s.length ≤ 3 ∧ ∀ c ∈ s.data, c = 'x' ∨ c = 'y' ∨ c = 'z'

/-- The regex `^[XYZ]\x7b1,3\x7d$` of `_make_dcm_from_euler`: 1 to 3
characters, all uppercase axis letters (intrinsic sequence). -/
def intrinsicMatch (s : String) : Prop :=
  1 ≤ s.length ∧ s.length ≤ 3 ∧ ∀ c ∈ s.data, c = 'X' ∨ c = 'Y' ∨ c = 'Z'

instance (s : String) : Decidable (extrinsicMatch s) := by
  unfold extrinsicMatch
  infer_instance

instance (s : String) : Decidable (intrinsicMatch s) := by
  unfold intrinsicMatch
  infer_instance

noncomputable section

/-- `Rotation._make_dcm_from_angle`: elementary rotation matrix about the
axis named by `c` (lowercased), transposed when `intrinsic` is true.  When
the lowercased character is none of `x`, `y`, `z` the local variable `dcm`
is never assigned and the function fails (`none`). -/
def make_dcm_from_angle (c : Char) (angle : ℝ) (intrinsic : Bool) :
    Option Mat3 :=
  let sinx := Real.sin angle
  let cosx := Real.cos angle
  let base : Option Mat3 :=
    if c.toLower = 'z' then
      some !![cosx, -sinx, 0; sinx, cosx, 0; 0, 0, 1]
    else if c.toLower = 'y' then
      some !![cosx, 0, sinx; 0, 1, 0; -sinx, 0, cosx]
    else if c.toLower = 'x' then
      some !![1, 0, 0; 0, cosx, -sinx; 0, sinx, cosx]
    else none
  base.map fun dcm => if intrinsic then dcm.transpose else dcm

/-- The operation actually performed by
`np.einsum('...ij,...ik->...ik', A, B)` in the intrinsic branch of
`_make_dcm_from_euler`: the index `j` appears only in the first operand, so
it is summed there, and no contraction links `A` and `B` — entry `(i, k)`
is the `i`-th row sum of `A` times `B i k`.  This is not a matrix product. -/
def einsum_ij_ik (A B : Mat3) : Mat3 :=
  Matrix.of fun i k => (∑ j, A i j) * B i k

/-- One step of the composition loop of `_make_dcm_from_euler`: extrinsic
steps pre-multiply (`np.einsum('...ij,...jk->...ik', R, dcm)`, a true
matrix product), intrinsic steps apply the `'...ij,...ik->...ik'` reduction
to `dcm` and the transposed elementary matrix. -/
def euler_step (intr : Bool) (dcm : Mat3) (p : Char × ℝ) :
    Except String Mat3 :=
  (make_dcm_from_angle p.1 p.2 intr).elim
    (Except.error "NameError: local variable dcm referenced before assignment")
    (fun R => Except.ok (if intr then einsum_ij_ik dcm R else R * dcm))

/-- `Rotation._make_dcm_from_euler`: length check, regex check, then the
composition loop starting from `np.eye(3)`. -/
def make_dcm_from_euler (s : String) (angle : List ℝ) :
    Except String Mat3 :=
  if s.length ≠ angle.length then
    Except.error "Number of axes specified does not match number of angles given"
  else if ¬ extrinsicMatch s ∧ ¬ intrinsicMatch s then
    Except.error "Cannot allow mixing of intrinsic and extrinsic rotations in sequence"
  else if extrinsicMatch s then
    (s.data.zip angle).foldlM (euler_step false) (1 : Mat3)
  else
    (s.data.zip angle).foldlM (euler_step true) (1 : Mat3)

/-- `Rotation.from_dcm` on a single `(3, 3)` input: a single rotation
holding the extracted quaternion (constructed with `normalized=True`). -/
def from_dcm_single (M : Mat3) : Rotation := ⟨true, [dcm_to_quat M]⟩

/-- `Rotation.from_dcm` on a batch `(N, 3, 3)` input. -/
def from_dcm_batch (Ms : List Mat3) : Rotation := ⟨false, Ms.map dcm_to_quat⟩

/-- The quaternion argument of `Rotation.__init__`: a single `(4,)` row or
an `(N, 4)` batch. -/
inductive QuatArg where
  | one (q : Quat)
  | many (qs : List Quat)

/-- The rows stored by `__init__` (a `(4,)` input becomes one row). -/
def QuatArg.rowList : QuatArg → List Quat
  | .one q => [q]
  | .many qs => qs

/-- The `_single` flag set by `__init__`. -/
def QuatArg.isSingle : QuatArg → Bool
  | .one _ => true
  | .many _ => false

open scoped Classical in
/-- `Rotation.__init__`: with `normalized=True` the rows are stored as
given; otherwise any row of exactly zero L2 norm raises, and on success
every row is divided by its own norm. -/
def rotation_init (arg : QuatArg) (normalized : Bool) :
    Except String Rotation :=
  if normalized then Except.ok ⟨arg.isSingle, arg.rowList⟩
  else if ∃ q ∈ arg.rowList, qnorm q = 0 then
    Except.error "Found zero norm quaternions in quat."
  else Except.ok ⟨arg.isSingle, arg.rowList.map qnormalize⟩

/-- The per-rotation loop of `Rotation.from_euler` over pairs of one
sequence string and its angle row, failing at the first bad pair. -/
def dcm_list : List (String × List ℝ) → Except String (List Mat3)
  | [] => Except.ok []
  | p :: rest =>
    (make_dcm_from_euler p.1 p.2).bind fun M =>
      (dcm_list rest).bind fun Ms => Except.ok (M :: Ms)

/-- The `seq` argument of `Rotation.from_euler`: one string, or an array of
per-rotation strings. -/
inductive SeqArg where
  | str (s : String)
  | arr (ss : List String)

/-- The `angle_mat` argument of `Rotation.from_euler` after
`np.asarray`: a 1-dimensional vector or an `(n, m)` 2-dimensional array. -/
inductive AngleArg where
  | one (a : List ℝ)
  | many (n m : ℕ) (f : Fin n → Fin m → ℝ)

/-- `np.deg2rad` applied to the whole angle array. -/
def AngleArg.deg2rad : AngleArg → AngleArg
  | .one a => .one (a.map fun x => x * (π / 180))
  | .many n m f => .many n m fun i j => f i j * (π / 180)

/-- `angle_mat.shape[0]`. -/
def AngleArg.shape0 : AngleArg → ℕ
  | .one a => a.length
  | .many n _ _ => n

/-- `Rotation.from_euler`.  A `str` sequence takes the single-rotation
path, which requires a 1-dimensional angle array of matching length; an
array of sequences requires a matching-length 2-dimensional `(N, 3)` angle
array and builds one DCM per row before delegating to `from_dcm`. -/
def from_euler (seq : SeqArg) (angle_mat : AngleArg) (deg : Bool) :
    Except String Rotation :=
  let am := if deg then angle_mat.deg2rad else angle_mat
  match seq with
  | .str s =>
    match am with
    | .one a =>
      if s.length ≠ a.length then
        Except.error "Invalid axis sequence for angles specified"
      else (make_dcm_from_euler s a).map from_dcm_single
    | .many _ _ _ =>
      Except.error "Invalid axis sequence for angles specified"
  | .arr ss =>
    if ss.length ≠ am.shape0 then
      Except.error "Number of axis sequences specified does not match number of angle sequences"
    else
      match am with
      | .one _ =>
        Except.error "For multiple rotations, expected 3 angles per sequence"
      | .many n m f =>
        if m ≠ 3 then
          Except.error "For multiple rotations, expected 3 angles per sequence"
        else
          (dcm_list (ss.zip ((List.finRange n).map fun i =>
            List.ofFn (f i)))).map from_dcm_batch

end

/-- C6: with `normalized=False`, construction raises the zero-norm error
precisely when some input row has exactly zero L2 norm, and otherwise
succeeds with every row divided by its own norm (no partial result ever
escapes: the failure case returns no rows at all). -/
theorem c6_init_zero_norm (arg : QuatArg) :
    ((∃ q ∈ arg.rowList, qnorm q = 0) →
        rotation_init arg false =
          Except.error "Found zero norm quaternions in quat.") ∧
      ((∀ q ∈ arg.rowList, qnorm q ≠ 0) →
        rotation_init arg false =
          Except.ok ⟨arg.isSingle, arg.rowList.map qnormalize⟩) := by
  constructor
  · intro hex
    rw [rotation_init, if_neg Bool.false_ne_true, if_pos hex]
  · intro hall
    have hnex : ¬ ∃ q ∈ arg.rowList, qnorm q = 0 := by
      rintro ⟨q, hq, h0⟩
      exact hall q hq h0
    rw [rotation_init, if_neg Bool.false_ne_true, if_neg hnex]

/-- Witness for C6: the zero quaternion raises, `(0, 0, 0, 2)` is accepted
and normalized. -/
theorem c6_init_zero_norm_witness :
    rotation_init (QuatArg.one ⟨0, 0, 0, 0⟩) false =
        Except.error "Found zero norm quaternions in quat." ∧
      rotation_init (QuatArg.one ⟨0, 0, 0, 2⟩) false =
        Except.ok ⟨true, [qnormalize ⟨0, 0, 0, 2⟩]⟩ := by
  constructor
  · refine (c6_init_zero_norm (QuatArg.one ⟨0, 0, 0, 0⟩)).1 ⟨⟨0, 0, 0, 0⟩, ?_, ?_⟩
    · simp [QuatArg.rowList]
    · rw [qnorm]
      norm_num
  · refine (c6_init_zero_norm (QuatArg.one ⟨0, 0, 0, 2⟩)).2 ?_
    intro q hq
    rw [QuatArg.rowList, List.mem_singleton] at hq
    rw [hq, qnorm]
    rw [show (0 : ℝ) ^ 2 + 0 ^ 2 + 0 ^ 2 + 2 ^ 2 = 4 by norm_num]
    rw [show (4 : ℝ) = 2 ^ 2 by norm_num, Real.sqrt_sq (by norm_num)]
    norm_num

/-- Core of C9: a character whose lowercasing is an axis letter always
yields a matrix (the `none` branch of `make_dcm_from_angle` is not hit). -/
lemma axis_char_isSome {c : Char}
    (hc : c.toLower = 'x' ∨ c.toLower = 'y' ∨ c.toLower = 'z') (a : ℝ)
    (b : Bool) : (make_dcm_from_angle c a b).isSome = true := by
  simp only [make_dcm_from_angle]
  rcases hc with h | h | h <;> rw [h]
  · rw [if_neg (by decide), if_neg (by decide), if_pos rfl]
    simp
  · rw [if_neg (by decide), if_pos rfl]
    simp
  · rw [if_pos rfl]
    simp

/-- Every character of a sequence accepted by either regex lowercases to an
axis letter. -/
lemma valid_seq_char {s : String} (hs : extrinsicMatch s ∨ intrinsicMatch s)
    {c : Char} (hc : c ∈ s.data) :
    c.toLower = 'x' ∨ c.toLower = 'y' ∨ c.toLower = 'z' := by
  rcases hs with ⟨_, _, hall⟩ | ⟨_, _, hall⟩ <;>
    rcases hall c hc with rfl | rfl | rfl <;>
      first
      | exact Or.inl (by decide)
      | exact Or.inr (Or.inl (by decide))
      | exact Or.inr (Or.inr (by decide))

/-- C9: under the regex precondition of `_make_dcm_from_euler`, every
character handed to `_make_dcm_from_angle` is a valid axis letter, so the
unassigned-`dcm` failure branch is unreachable. -/
theorem c9_invalid_axis_unreachable (s : String)
    (hs : extrinsicMatch s ∨ intrinsicMatch s) (c : Char) (hc : c ∈ s.data)
    (a : ℝ) (b : Bool) : (make_dcm_from_angle c a b).isSome = true :=
  axis_char_isSome (valid_seq_char hs hc) a b

/-- Witness for C9 at the sequence `"XYZ"` and its first character. -/
theorem c9_invalid_axis_unreachable_witness :
    (extrinsicMatch "XYZ" ∨ intrinsicMatch "XYZ") ∧ 'X' ∈ "XYZ".data ∧
      (make_dcm_from_angle 'X' 0 true).isSome = true :=
  ⟨Or.inr (by decide), by decide,
    c9_invalid_axis_unreachable "XYZ" (Or.inr (by decide)) 'X' (by decide) 0
      true⟩

lemma make_dcm_X (a : ℝ) :
    make_dcm_from_angle 'X' a true =
      some !![1, 0, 0; 0, Real.cos a, Real.sin a; 0, -Real.sin a, Real.cos a] := by
  simp only [make_dcm_from_angle]
  rw [if_neg (by decide), if_neg (by decide), if_pos (by decide),
    Option.map_some', if_true]
  congr 1
  ext i j
  fin_cases i <;> fin_cases j <;> rfl

lemma make_dcm_Y (a : ℝ) :
    make_dcm_from_angle 'Y' a true =
      some !![Real.cos a, 0, -Real.sin a; 0, 1, 0; Real.sin a, 0, Real.cos a] := by
  simp only [make_dcm_from_angle]
  rw [if_neg (by decide), if_pos (by decide), Option.map_some', if_true]
  congr 1
  ext i j
  fin_cases i <;> fin_cases j <;> rfl

lemma make_dcm_Z (a : ℝ) :
    make_dcm_from_angle 'Z' a true =
      some !![Real.cos a, Real.sin a, 0; -Real.sin a, Real.cos a, 0; 0, 0, 1] := by
  simp only [make_dcm_from_angle]
  rw [if_pos (by decide), Option.map_some', if_true]
  congr 1
  ext i j
  fin_cases i <;> fin_cases j <;> rfl

lemma make_dcm_x (a : ℝ) :
    make_dcm_from_angle 'x' a false =
      some !![1, 0, 0; 0, Real.cos a, -Real.sin a; 0, Real.sin a, Real.cos a] := by
  simp only [make_dcm_from_angle]
  rw [if_neg (by decide), if_neg (by decide), if_pos (by decide),
    Option.map_some', if_neg Bool.false_ne_true]

lemma make_dcm_y (a : ℝ) :
    make_dcm_from_angle 'y' a false =
      some !![Real.cos a, 0, Real.sin a; 0, 1, 0; -Real.sin a, 0, Real.cos a] := by
  simp only [make_dcm_from_angle]
  rw [if_neg (by decide), if_pos (by decide), Option.map_some',
    if_neg Bool.false_ne_true]

lemma make_dcm_z (a : ℝ) :
    make_dcm_from_angle 'z' a false =
      some !![Real.cos a, -Real.sin a, 0; Real.sin a, Real.cos a, 0; 0, 0, 1] := by
  simp only [make_dcm_from_angle]
  rw [if_pos (by decide), Option.map_some', if_neg Bool.false_ne_true]

lemma except_ok_bind {α β : Type} (a : α) (g : α → Except String β) :
    (Except.ok a : Except String α) >>= g = g a := rfl

lemma euler_step_some {b : Bool} {c : Char} {a : ℝ} {R : Mat3}
    (h : make_dcm_from_angle c a b = some R) (dcm : Mat3) :
    euler_step b dcm (c, a) =
      Except.ok (if b then einsum_ij_ik dcm R else R * dcm) := by
  rw [euler_step]
  show (make_dcm_from_angle c a b).elim _ _ = _
  rw [h]
  rfl

lemma foldlM_three {f : Mat3 → Char × ℝ → Except String Mat3}
    {d0 d1 d2 d3 : Mat3} {p1 p2 p3 : Char × ℝ} (h1 : f d0 p1 = Except.ok d1)
    (h2 : f d1 p2 = Except.ok d2) (h3 : f d2 p3 = Except.ok d3) :
    [p1, p2, p3].foldlM f d0 = Except.ok d3 := by
  have e : [p1, p2, p3].foldlM f d0 =
      f d0 p1 >>= fun s1 => f s1 p2 >>= fun s2 => f s2 p3 >>= fun s3 =>
        pure s3 := rfl
  rw [e]
  simp only [h1, h2, h3, except_ok_bind]
  rfl

lemma einsum_one (B : Mat3) : einsum_ij_ik 1 B = B := by
  ext i k
  simp [einsum_ij_ik, Matrix.one_apply, Finset.sum_ite_eq]

/-- C1 (code evaluation at the failing input): the intrinsic sequence
`"XYZ"` with angles `(pi/2, 0, 0)` composes to `diag(1, 1, -1)` — a
determinant `-1` reflection — not the elementary x-axis rotation by `pi/2`
that the extrinsic sequence `"xyz"` yields, because the einsum subscript
`'...ij,...ik->...ik'` in the intrinsic branch is a row-sum scaling rather
than the post-multiplication its comment announces. -/
theorem c1_euler_intrinsic_code_bug :
    make_dcm_from_euler "XYZ" [π / 2, 0, 0] =
        Except.ok !![1, 0, 0; 0, 1, 0; 0, 0, -1] ∧
      make_dcm_from_euler "xyz" [π / 2, 0, 0] =
        Except.ok !![1, 0, 0; 0, 0, -1; 0, 1, 0] ∧
      (!![1, 0, 0; 0, 1, 0; 0, 0, -1] : Mat3) ≠
        !![1, 0, 0; 0, 0, -1; 0, 1, 0] ∧
      (!![1, 0, 0; 0, 1, 0; 0, 0, -1] : Mat3).det = -1 := by
  refine ⟨?_, ?_, ?_, ?_⟩
  · rw [make_dcm_from_euler, if_neg (by decide), if_neg (by decide),
      if_neg (by decide)]
    show ([('X', π / 2), ('Y', (0 : ℝ)), ('Z', (0 : ℝ))]).foldlM
      (euler_step true) (1 : Mat3) = _
    have hx := make_dcm_X (π / 2)
    rw [Real.cos_pi_div_two, Real.sin_pi_div_two] at hx
    have hy := make_dcm_Y (0 : ℝ)
    rw [Real.cos_zero, Real.sin_zero, neg_zero] at hy
    have hz := make_dcm_Z (0 : ℝ)
    rw [Real.cos_zero, Real.sin_zero, neg_zero] at hz
    have h1 : euler_step true (1 : Mat3) ('X', π / 2) =
        Except.ok !![1, 0, 0; 0, 0, 1; 0, -1, 0] := by
      rw [euler_step_some hx, if_pos rfl, einsum_one]
    have h2 : euler_step true (!![1, 0, 0; 0, 0, 1; 0, -1, 0] : Mat3) ('Y', 0) =
        Except.ok !![1, 0, 0; 0, 1, 0; 0, 0, -1] := by
      rw [euler_step_some hy, if_pos rfl]
      congr 1
      ext i k
      fin_cases i <;> fin_cases k <;>
        simp [einsum_ij_ik, Fin.sum_univ_three, Matrix.vecHead, Matrix.vecTail]
    have h3 : euler_step true (!![1, 0, 0; 0, 1, 0; 0, 0, -1] : Mat3) ('Z', 0) =
        Except.ok !![1, 0, 0; 0, 1, 0; 0, 0, -1] := by
      rw [euler_step_some hz, if_pos rfl]
      congr 1
      ext i k
      fin_cases i <;> fin_cases k <;>
        simp [einsum_ij_ik, Fin.sum_univ_three, Matrix.vecHead, Matrix.vecTail]
    exact foldlM_three h1 h2 h3
  · rw [make_dcm_from_euler, if_neg (by decide), if_neg (by decide),
      if_pos (by decide)]
    show ([('x', π / 2), ('y', (0 : ℝ)), ('z', (0 : ℝ))]).foldlM
      (euler_step false) (1 : Mat3) = _
    have hx := make_dcm_x (π / 2)
    rw [Real.cos_pi_div_two, Real.sin_pi_div_two] at hx
    have hy := make_dcm_y (0 : ℝ)
    rw [Real.cos_zero, Real.sin_zero, neg_zero] at hy
    have hz := make_dcm_z (0 : ℝ)
    rw [Real.cos_zero, Real.sin_zero, neg_zero] at hz
    have h1 : euler_step false (1 : Mat3) ('x', π / 2) =
        Except.ok !![1, 0, 0; 0, 0, -1; 0, 1, 0] := by
      rw [euler_step_some hx, if_neg Bool.false_ne_true, Matrix.mul_one]
    have h2 : euler_step false (!![1, 0, 0; 0, 0, -1; 0, 1, 0] : Mat3) ('y', 0) =
        Except.ok !![1, 0, 0; 0, 0, -1; 0, 1, 0] := by
      rw [euler_step_some hy, if_neg Bool.false_ne_true]
      congr 1
      rw [Matrix.mul_fin_three]
      norm_num
    have h3 : euler_step false (!![1, 0, 0; 0, 0, -1; 0, 1, 0] : Mat3) ('z', 0) =
        Except.ok !![1, 0, 0; 0, 0, -1; 0, 1, 0] := by
      rw [euler_step_some hz, if_neg Bool.false_ne_true]
      congr 1
      rw [Matrix.mul_fin_three]
      norm_num
    exact foldlM_three h1 h2 h3
  · intro heq
    have h11 : (1 : ℝ) = 0 := congrFun (congrFun heq 1) 1
    norm_num at h11
  · rw [Matrix.det_fin_three]
    norm_num

lemma foldlM_euler_ok (b : Bool) (pairs : List (Char × ℝ)) :
    (∀ p ∈ pairs, (make_dcm_from_angle p.1 p.2 b).isSome = true) →
    ∀ init : Mat3, ∃ M, pairs.foldlM (euler_step b) init = Except.ok M := by
  induction pairs with
  | nil =>
    intro _ init
    exact ⟨init, rfl⟩
  | cons p rest ih =>
    intro hall init
    obtain ⟨R, hR⟩ := Option.isSome_iff_exists.mp (hall p (List.mem_cons_self p rest))
    have hstep : euler_step b init p =
        Except.ok (if b then einsum_ij_ik init R else R * init) := by
      rw [euler_step]
      show (make_dcm_from_angle p.1 p.2 b).elim _ _ = _
      rw [hR]
      rfl
    obtain ⟨M, hM⟩ := ih (fun q hq => hall q (List.mem_cons_of_mem p hq))
      (if b then einsum_ij_ik init R else R * init)
    refine ⟨M, ?_⟩
    have e : (p :: rest).foldlM (euler_step b) init =
        euler_step b init p >>= fun d => rest.foldlM (euler_step b) d := rfl
    rw [e, hstep, except_ok_bind]
    exact hM

/-- A sequence accepted by one of the two regexes, with one angle per
character, always composes successfully. -/
lemma make_dcm_from_euler_ok {s : String} {a : List ℝ}
    (hv : extrinsicMatch s ∨ intrinsicMatch s) (hl : s.length = a.length) :
    ∃ M, make_dcm_from_euler s a = Except.ok M := by
  rw [make_dcm_from_euler, if_neg (fun hne => hne hl),
    if_neg (by rcases hv with h | h
               · exact fun hc => hc.1 h
               · exact fun hc => hc.2 h)]
  by_cases hext : extrinsicMatch s
  · rw [if_pos hext]
    refine foldlM_euler_ok false _ ?_ 1
    intro p hp
    obtain ⟨c, r⟩ := p
    exact axis_char_isSome (valid_seq_char hv (List.of_mem_zip hp).1) r false
  · rw [if_neg hext]
    refine foldlM_euler_ok true _ ?_ 1
    intro p hp
    obtain ⟨c, r⟩ := p
    exact axis_char_isSome (valid_seq_char hv (List.of_mem_zip hp).1) r true

lemma dcm_list_ok {pairs : List (String × List ℝ)}
    (h : ∀ p ∈ pairs, ∃ M, make_dcm_from_euler p.1 p.2 = Except.ok M) :
    ∃ Ms, dcm_list pairs = Except.ok Ms ∧ Ms.length = pairs.length := by
  induction pairs with
  | nil => exact ⟨[], rfl, rfl⟩
  | cons p rest ih =>
    obtain ⟨M, hM⟩ := h p (List.mem_cons_self p rest)
    obtain ⟨Ms, hMs, hln⟩ := ih (fun q hq => h q (List.mem_cons_of_mem p hq))
    refine ⟨M :: Ms, ?_, by simp [hln]⟩
    rw [dcm_list, hM, hMs]
    rfl

lemma dcm_list_error {pairs : List (String × List ℝ)} {p : String × List ℝ}
    (hp : p ∈ pairs) (he : ∃ e, make_dcm_from_euler p.1 p.2 = Except.error e) :
    ∃ e, dcm_list pairs = Except.error e := by
  induction pairs with
  | nil => cases hp
  | cons q rest ih =>
    rcases List.mem_cons.mp hp with rfl | hmem
    · obtain ⟨e, he'⟩ := he
      refine ⟨e, ?_⟩
      rw [dcm_list, he']
      rfl
    · rcases hq : make_dcm_from_euler q.1 q.2 with e | M
      · refine ⟨e, ?_⟩
        rw [dcm_list, hq]
        rfl
      · obtain ⟨e, hrest⟩ := ih hmem
        refine ⟨e, ?_⟩
        rw [dcm_list, hq, hrest]
        rfl

lemma mem_zip_left {α β : Type} {s : α} : ∀ (ss : List α) (rows : List β),
    s ∈ ss → ss.length = rows.length → ∃ r, (s, r) ∈ ss.zip rows := by
  intro ss
  induction ss with
  | nil =>
    intro rows h
    cases h
  | cons a t ih =>
    intro rows hmem hlen
    cases rows with
    | nil => simp at hlen
    | cons r rt =>
      rcases List.mem_cons.mp hmem with rfl | hmem'
      · exact ⟨r, List.mem_cons_self _ _⟩
      · obtain ⟨r', hr'⟩ := ih rt hmem' (by simpa using hlen)
        exact ⟨r', List.mem_cons_of_mem _ hr'⟩

/-- C3 counterexample: a single 3-character sequence string paired with an
`(N, 3)` batch of angle rows is rejected by `from_euler` (the `str` path
demands a 1-dimensional angle array), so the claimed batch call never
constructs any rotation. -/
theorem c3_counterexample :
    from_euler (SeqArg.str "xyz") (AngleArg.many 2 3 fun _ _ => 0) false =
      Except.error "Invalid axis sequence for angles specified" := rfl

/-- C3 amended: a single sequence string with a 2-dimensional angle array
always raises; the batch form instead requires an array of `N` per-rotation
sequence strings with an `(N, 3)` angle array, in which case `from_euler`
succeeds and constructs `N` rotations. -/
theorem c3_batch_form :
    (∀ (s : String) (n m : ℕ) (f : Fin n → Fin m → ℝ) (deg : Bool),
        ∃ e, from_euler (SeqArg.str s) (AngleArg.many n m f) deg =
          Except.error e) ∧
      (∀ (n : ℕ) (ss : List String) (f : Fin n → Fin 3 → ℝ) (deg : Bool),
        ss.length = n →
        (∀ s ∈ ss, (extrinsicMatch s ∨ intrinsicMatch s) ∧ s.length = 3) →
        ∃ r, from_euler (SeqArg.arr ss) (AngleArg.many n 3 f) deg =
            Except.ok r ∧ r.single = false ∧ r.rows.length = n) := by
  constructor
  · intro s n m f deg
    cases deg <;> exact ⟨_, rfl⟩
  · intro n ss f deg hlen hall
    obtain ⟨g, hg⟩ : ∃ g, (if deg then (AngleArg.many n 3 f).deg2rad
        else AngleArg.many n 3 f) = AngleArg.many n 3 g := by
      cases deg <;> exact ⟨_, rfl⟩
    have hok : ∀ p ∈ ss.zip ((List.finRange n).map fun i => List.ofFn (g i)),
        ∃ M, make_dcm_from_euler p.1 p.2 = Except.ok M := by
      intro p hp
      obtain ⟨ps, pr⟩ := p
      have h1 : ps ∈ ss := (List.of_mem_zip hp).1
      have h2 : pr ∈ (List.finRange n).map fun i => List.ofFn (g i) :=
        (List.of_mem_zip hp).2
      have hprl : pr.length = 3 := by
        obtain ⟨i, _, rfl⟩ := List.mem_map.mp h2
        simp
      exact make_dcm_from_euler_ok (hall ps h1).1
        (by rw [(hall ps h1).2, hprl])
    obtain ⟨Ms, hMs, hMslen⟩ := dcm_list_ok hok
    refine ⟨from_dcm_batch Ms, ?_, rfl, ?_⟩
    · simp only [from_euler]
      rw [hg]
      simp only [AngleArg.shape0]
      rw [if_neg (fun hne => hne hlen), if_neg (fun hne => hne rfl), hMs]
      rfl
    · show (Ms.map dcm_to_quat).length = n
      rw [List.length_map, hMslen, List.length_zip]
      simp [hlen]

/-- Witness for C3's amended claim at two concrete sequences. -/
theorem c3_batch_form_witness :
    (∃ e, from_euler (SeqArg.str "xyz") (AngleArg.many 2 3 fun _ _ => 0)
        false = Except.error e) ∧
      ∃ r, from_euler (SeqArg.arr ["xyz", "zyx"])
          (AngleArg.many 2 3 fun _ _ => 0) false = Except.ok r ∧
        r.single = false ∧ r.rows.length = 2 := by
  constructor
  · exact c3_batch_form.1 "xyz" 2 3 (fun _ _ => 0) false
  · refine c3_batch_form.2 2 ["xyz", "zyx"] (fun _ _ => 0) false rfl ?_
    intro s hs
    rcases List.mem_cons.mp hs with rfl | hs'
    · exact ⟨Or.inl (by decide), by decide⟩
    · rcases List.mem_cons.mp hs' with rfl | hs''
      · exact ⟨Or.inl (by decide), by decide⟩
      · cases hs''

/-- C10: an array of per-rotation sequence strings containing a string of
length 1 or 2 always fails (the batch path requires an `(N, 3)` angle array
and three axes per sequence), while the same short string used alone with a
matching-length 1-dimensional angle vector is accepted. -/
theorem c10_short_seq_in_batch (ss : List String) (s : String) (hs : s ∈ ss)
    (hlen : s.length = 1 ∨ s.length = 2) :
    (∀ (am : AngleArg) (deg : Bool),
        ∃ e, from_euler (SeqArg.arr ss) am deg = Except.error e) ∧
      (∀ (a : List ℝ) (deg : Bool),
        extrinsicMatch s ∨ intrinsicMatch s → s.length = a.length →
        ∃ r, from_euler (SeqArg.str s) (AngleArg.one a) deg = Except.ok r) := by
  constructor
  · intro am deg
    cases am with
    | one a =>
      obtain ⟨a', ha'⟩ : ∃ a', (if deg then (AngleArg.one a).deg2rad
          else AngleArg.one a) = AngleArg.one a' := by
        cases deg <;> exact ⟨_, rfl⟩
      simp only [from_euler]
      rw [ha']
      simp only [AngleArg.shape0]
      split_ifs <;> exact ⟨_, rfl⟩
    | many n m f =>
      obtain ⟨g, hg⟩ : ∃ g, (if deg then (AngleArg.many n m f).deg2rad
          else AngleArg.many n m f) = AngleArg.many n m g := by
        cases deg <;> exact ⟨_, rfl⟩
      simp only [from_euler]
      rw [hg]
      simp only [AngleArg.shape0]
      by_cases hn : ss.length ≠ n
      · rw [if_pos hn]
        exact ⟨_, rfl⟩
      · rw [if_neg hn]
        by_cases hm : m ≠ 3
        · rw [if_pos hm]
          exact ⟨_, rfl⟩
        · rw [if_neg hm]
          have hm3 : m = 3 := not_ne_iff.mp hm
          subst hm3
          have hn' : ss.length = n := not_ne_iff.mp hn
          have hrows : ((List.finRange n).map fun i => List.ofFn (g i)).length
              = n := by simp
          obtain ⟨r, hr⟩ := mem_zip_left ss
            ((List.finRange n).map fun i => List.ofFn (g i)) hs
            (by rw [hn', hrows])
          have hrl : r.length = 3 := by
            have h2 : r ∈ (List.finRange n).map fun i => List.ofFn (g i) :=
              (List.of_mem_zip hr).2
            obtain ⟨i, _, rfl⟩ := List.mem_map.mp h2
            simp
          have herr : ∃ e, make_dcm_from_euler s r = Except.error e := by
            have hne : s.length ≠ r.length := by
              rw [hrl]
              rcases hlen with h | h <;> simp [h]
            exact ⟨_, by rw [make_dcm_from_euler, if_pos hne]⟩
          obtain ⟨e, he⟩ := dcm_list_error hr herr
          refine ⟨e, ?_⟩
          rw [he]
          rfl
  · intro a deg hv hmatch
    obtain ⟨a', ha', hlen'⟩ : ∃ a', (if deg then (AngleArg.one a).deg2rad
        else AngleArg.one a) = AngleArg.one a' ∧ a'.length = a.length := by
      cases deg
      · exact ⟨a, rfl, rfl⟩
      · exact ⟨_, rfl, by simp [AngleArg.deg2rad]⟩
    have heq : s.length = a'.length := by rw [hmatch, ← hlen']
    obtain ⟨M, hM⟩ := make_dcm_from_euler_ok hv heq
    refine ⟨from_dcm_single M, ?_⟩
    simp only [from_euler]
    rw [ha']
    show (if s.length ≠ a'.length then
        Except.error "Invalid axis sequence for angles specified"
      else Except.map from_dcm_single (make_dcm_from_euler s a')) =
      Except.ok (from_dcm_single M)
    rw [if_neg (fun hne => hne heq), hM]
    rfl

/-- Witness for C10: the batch `["xy"]` always errors; `"xy"` alone with
two angles is accepted. -/
theorem c10_short_seq_in_batch_witness :
    (∃ e, from_euler (SeqArg.arr ["xy"]) (AngleArg.one []) false =
        Except.error e) ∧
      ∃ r, from_euler (SeqArg.str "xy") (AngleArg.one [0, 0]) false =
        Except.ok r := by
  constructor
  · exact (c10_short_seq_in_batch ["xy"] "xy" (List.mem_singleton.mpr rfl)
      (Or.inr rfl)).1 (AngleArg.one []) false
  · exact (c10_short_seq_in_batch ["xy"] "xy" (List.mem_singleton.mpr rfl)
      (Or.inr rfl)).2 [0, 0] false (Or.inl (by decide)) (by decide)

end SpatialRotation
